import Mathlib

/-!
# Verification of the Photospheres hierarchical focus-navigation core

Shallow embedding of the geometry primitives, the tree relationship
queries, the divide-and-conquer closest-pair routine `minDist`, and the
focus-scale clamp from `src/components/tsne.tsx`, together with proofs of
the spec's claims about them.

Modelling conventions:
* JavaScript numbers are idealized as real numbers (`ℝ`); the pure
  geometry primitives are stated generically over a `LinearOrderedField`
  so the algebraic claims can be checked over `ℚ` as well.
* The JavaScript value `Infinity`, which `minDist` returns for lists of
  fewer than two points and which propagates through `Math.min` and the
  strip-window comparisons, is modelled as `⊤` in `WithTop ℝ`.
* `minDist` is a recursive function whose JS form has no syntactic
  termination measure (and indeed does not terminate on some inputs, see
  the theorems below), so it is embedded fuel-indexed: `none` means the
  recursion did not complete within the given depth; divergence is
  `∀ fuel, ... = none`.
* d3 hierarchy nodes carry mutable parent/child back-references; following
  the spec's own design note they are modelled without cycles, as the
  (reversed) path of child indices from the root: `[]` is the root, and
  `i :: p` is child `i` of the node with path `p`.  Well-formedness (each
  node occurring exactly once in its parent's children list) makes the
  d3 `indexOf`-based sibling lookup coincide with the head of the path.
* The `memoize` helper that `Chart` wraps `clusterSpacing` and
  `clusterBounds` in comes from `../utils`, which is not part of `src/`;
  its cache semantics (look the key up, compute and store on a miss) are
  modelled from the spec, while the key functions — `node.value`, and
  `node.value` paired with the depth — are taken from the source.  The
  caches are threaded explicitly through `focusMemo` as `ChartState`.
-/

/-- An axis-aligned rectangle `[left, top, width, height]`
(`type Rectangle = [number, number, number, number]` in the source). -/
structure Rect (α : Type) where
  left : α
  top : α
  width : α
  height : α
deriving DecidableEq

/-- `fitRect(contentBounds, [frameWidth, frameHeight])`: the smallest
rectangle with the frame's aspect ratio containing the content bounds,
recentered on the content's center. -/
def fitRect {α : Type} [LinearOrderedField α] (r : Rect α) (frameWidth frameHeight : α) :
    Rect α :=
  let scale := max (r.width / frameWidth) (r.height / frameHeight)
  let width := frameWidth * scale
  let height := frameHeight * scale
  ⟨r.left - (width - r.width) / 2, r.top - (height - r.height) / 2, width, height⟩

/-- `rectToView(rect, frameWidth)`: camera view `(centerX, centerY, scale)`
with `scale = frameWidth / rect.width`. -/
def rectToView {α : Type} [LinearOrderedField α] (r : Rect α) (frameWidth : α) : α × α × α :=
  (r.left + r.width / 2, r.top + r.height / 2, frameWidth / r.width)

/-- `scaleRectangle(rect, scale)`: scales a rectangle out from its center. -/
def scaleRectangle {α : Type} [LinearOrderedField α] (r : Rect α) (scale : α) : Rect α :=
  let centerX := r.left + r.width / 2
  let centerY := r.top + r.height / 2
  let newWidth := r.width * scale
  let newHeight := r.height * scale
  ⟨centerX - newWidth / 2, centerY - newHeight / 2, newWidth, newHeight⟩

/-! ## Tree relationship queries

Nodes are reversed root paths: `[]` is the root; `i :: p` is child number
`i` of the node `p`.  `node.parent` exists iff the path is nonempty and is
its tail. -/

/-- `whichChild(node)`: `0` for the root, otherwise
`node.parent.children.indexOf(node)`, which for a well-formed tree is the
node's child index, i.e. the head of its path. -/
def whichChild : List ℕ → ℤ
  | [] => 0
  | i :: _ => (i : ℤ)

/-- `target.ancestors()` in d3: `[target, target.parent, ..., root]`. -/
def ancestors : List ℕ → List (List ℕ)
  | [] => [[]]
  | i :: p => (i :: p) :: ancestors p

/-- JavaScript `Array.prototype.indexOf`: index of the first occurrence of
`a`, `-1` if absent. -/
def jsIndexOf {α : Type} [DecidableEq α] : List α → α → ℤ
  | [], _ => -1
  | x :: xs, a =>
    if x = a then 0
    else
      let r := jsIndexOf xs a
      if r = -1 then -1 else r + 1

/-- `whichBranch(branch, target)`: locate `branch` in `target`'s ancestor
chain; `-1` when absent or first (i.e. `branch == target`), else the child
index of the chain entry just below `branch`.  The source indexes
`lineage[branchIndex - 1]` unguardedly; the `getD` default `[]` is
unreachable there since `0 < branchIndex < lineage.length`. -/
def whichBranch (branch target : List ℕ) : ℤ :=
  let lineage := ancestors target
  let branchIndex := jsIndexOf lineage branch
  if branchIndex ≤ 0 then -1 else whichChild (lineage.getD (branchIndex - 1).toNat [])

/-- `colorIndex(node)` in the parent-collision-avoiding variant:
sibling index, bumped by one when the parent's color index would collide
(`i += node.parent && colorIndex(node.parent) <= i ? 1 : 0`). -/
def colorIndex : List ℕ → ℤ
  | [] => 0
  | i :: p => (i : ℤ) + (if colorIndex p ≤ (i : ℤ) then 1 else 0)

/-- The cluster tree shape: an internal node's ordered children (leaves have
`[]`).  Payload data is irrelevant to the indexing claims. -/
inductive CTree : Type
  | node : List CTree → CTree

/-- The children list of a tree node. -/
def childrenOf : CTree → List CTree
  | .node cs => cs

/-- Follow a forward root path (list of child indices, root end first)
down the tree; `none` if some index is out of range. -/
def subtreeAt : List ℕ → CTree → Option CTree
  | [], t => some t
  | i :: p, t =>
    match (childrenOf t)[i]? with
    | some c => subtreeAt p c
    | none => none

/-- A node id (reversed path) denotes an actual node of `t`. -/
abbrev validNode (t : CTree) (p : List ℕ) : Prop := (subtreeAt p.reverse t).isSome

/-! ## Closest-pair spacing (`minDist`) -/

/-- A 2D point `[x, y]`. -/
abbrev Point : Type := ℝ × ℝ

/-- `Math.max(...xs)` for a nonempty list (`minDist` and `clusterBounds`
only apply it to nonempty lists; the `[]` value is arbitrary). -/
def maxList : List ℝ → ℝ
  | [] => 0
  | x :: xs => xs.foldl max x

/-- `Math.min(...xs)` for a nonempty list. -/
def minList : List ℝ → ℝ
  | [] => 0
  | x :: xs => xs.foldl min x

/-- The strip lists are sorted with `.sort(([, y1], [, y2]) => y1 - y2)`,
i.e. by ascending `y`. -/
noncomputable def sortByY (l : List Point) : List Point :=
  l.mergeSort fun a b => decide (a.2 ≤ b.2)

/-- The inner `for` loop of the strip scan: starting from the sliding lower
bound (`rs` is the remaining suffix of the right strip), walk right-strip
points while `rightStrip[i][1] < ly + subMin` — encoded as
`↑(r.y - l.y) < subMin`, which agrees with the JS comparison both for
finite `subMin` and for `subMin = Infinity` — and fold the running minimum
over `Math.sqrt((ry - ly) ** 2 + (rx - lx) ** 2)`. -/
noncomputable def innerScan (subMin : WithTop ℝ) (l : Point) (rs : List Point)
    (m : WithTop ℝ) : WithTop ℝ :=
  (rs.takeWhile fun r => decide ((↑(r.2 - l.2) : WithTop ℝ) < subMin)).foldl
    (fun acc r => min acc ↑(Real.sqrt ((r.2 - l.2) ^ 2 + (r.1 - l.1) ^ 2))) m

/-- The outer loop of the strip scan.  The mutable `rightIndexLow` cursor
into the (sorted) right strip is represented by the suffix `rs` it points
at; the `while` advance `rightStrip[rightIndexLow][1] < ly - subMin` is the
`dropWhile` of `subMin < ↑(l.y - r.y)` (again agreeing with JS for both
finite and infinite `subMin`). -/
noncomputable def scanLoop (subMin : WithTop ℝ) : List Point → List Point → WithTop ℝ → WithTop ℝ
  | [], _, m => m
  | l :: ls, rs, m =>
    let rs' := rs.dropWhile fun r => decide (subMin < (↑(l.2 - r.2) : WithTop ℝ))
    scanLoop subMin ls rs' (innerScan subMin l rs' m)

/-- The strip phase of `minDist`: filter each half to the points within
`subMin` of the split line (`mid - x < subMin` resp. `x - mid < subMin`,
encoded through the `WithTop` coercion), sort both strips by `y`, and run
the scan with the running minimum starting at `subMin`. -/
noncomputable def minDistStep (subMin : WithTop ℝ) (mid : ℝ) (left right : List Point) :
    WithTop ℝ :=
  let leftStrip := sortByY (left.filter fun p => decide ((↑(mid - p.1) : WithTop ℝ) < subMin))
  let rightStrip := sortByY (right.filter fun p => decide ((↑(p.1 - mid) : WithTop ℝ) < subMin))
  scanLoop subMin leftStrip rightStrip subMin

/-- `minDist(points)`, fuel-indexed (the JS recursion has no termination
measure): `none` means the recursion did not complete within `fuel` nested
calls.  `Infinity` for fewer than two points, the direct Euclidean distance
for two, otherwise split at the midpoint `mid` of the x-range into
`x < mid` / `x >= mid`, recurse, and run the strip scan. -/
noncomputable def minDistFuel : ℕ → List Point → Option (WithTop ℝ)
  | 0, _ => none
  | _ + 1, [] => some ⊤
  | _ + 1, [_] => some ⊤
  | _ + 1, [p, q] => some ↑(Real.sqrt ((p.1 - q.1) ^ 2 + (p.2 - q.2) ^ 2))
  | fuel + 1, p₀ :: p₁ :: p₂ :: rest =>
    let pts := p₀ :: p₁ :: p₂ :: rest
    let xs := pts.map Prod.fst
    let mid := (maxList xs + minList xs) / 2
    let left := pts.filter fun p => decide (p.1 < mid)
    let right := pts.filter fun p => decide (mid ≤ p.1)
    (minDistFuel fuel left).bind fun sl =>
      (minDistFuel fuel right).bind fun sr =>
        some (minDistStep (min sl sr) mid left right)

/-- The Euclidean distance between two points, as `minDist`'s two-point
base case computes it. -/
noncomputable def euclid (p q : Point) : ℝ :=
  Real.sqrt ((p.1 - q.1) ^ 2 + (p.2 - q.2) ^ 2)

/-- Modelled from the spec: the distances of all unordered pairs of the
list, the domain of the brute-force O(n²) reference that `minDist` is
claimed to match. -/
noncomputable def pairDists : List Point → List ℝ
  | [] => []
  | p :: ps => (ps.map fun q => euclid p q) ++ pairDists ps

/-- The minimum of a list of distances, `⊤` if the list is empty. -/
noncomputable def minOfDists (l : List ℝ) : WithTop ℝ :=
  l.foldr (fun d m => min (↑d) m) ⊤

/-- Modelled from the spec: the brute-force closest-pair reference — the
minimum Euclidean distance over all unordered pairs (`Infinity`/`⊤` when
there is no pair). -/
noncomputable def bruteForceMin (pts : List Point) : WithTop ℝ :=
  minOfDists (pairDists pts)

/-! ## Focus-scale clamp -/

/-- `clusterBounds` over the list of leaf positions: the axis-aligned
bounding box (`Math.min(...xs)` etc.; leaf lists of a d3 hierarchy are
always nonempty, the `[]` case inherits `maxList`/`minList`'s default). -/
def clusterBoundsList (pts : List Point) : Rect ℝ :=
  let xs := pts.map Prod.fst
  let ys := pts.map Prod.snd
  let left := minList xs
  let top := minList ys
  ⟨left, top, maxList xs - left, maxList ys - top⟩

/-- JavaScript division `a / spacing` of a positive constant by a
non-negative spacing that may be `Infinity`: `a / Infinity = 0` and
`a / 0 = Infinity`. -/
noncomputable def jsDivInf (a : ℝ) (spacing : WithTop ℝ) : WithTop ℝ :=
  match spacing with
  | ⊤ => ((0 : ℝ) : WithTop ℝ)
  | (s : ℝ) => if s = 0 then ⊤ else ((a / s : ℝ) : WithTop ℝ)

/-- Modelled from the spec: the `memoize` helper is imported from
`../utils`, a file that is not under `src/`.  The spec describes the
cache as "a mapping from (node identity, optional depth parameter) to a
previously computed aggregate value": a memoized call looks its key up
and computes — and stores — only on a miss.  The cache is an association
list; `lookupKey` returns the value stored under a key, if any. -/
def lookupKey {κ ν : Type} [DecidableEq κ] : List (κ × ν) → κ → Option ν
  | [], _ => none
  | (k, v) :: rest, key => if k = key then some v else lookupKey rest key

/-- The data of a d3 node that `Chart.focus` consumes: its `value` (the
`.sum()` aggregate, which the source uses as the memo key although it
need not be unique across nodes), its `depth`, and its leaf positions at
that depth — the list
`node.leaves().map(leaf => [leaf.data.x[node.depth], leaf.data.y[node.depth]])`
that both `clusterBounds(node, node.depth)` and `clusterSpacing(node)`
range over. -/
structure FocusNode where
  value : ℝ
  depth : ℕ
  leafPos : List Point

/-- The memoization caches a `Chart` instance holds across `focus` calls
(`initClusterFunctions`): the spacing cache keyed by `node.value` alone
and the bounds cache keyed by the `node.value + "," + depth` pair. -/
structure ChartState where
  spacingCache : List (ℝ × WithTop ℝ)
  boundsCache : List ((ℝ × ℕ) × Rect ℝ)

/-- `this.clusterSpacing`, i.e. `memoize(clusterSpacing, node => node.value)`:
on a hit the cached spacing is served unchanged — even when it was stored
by a different node with an equal `value`; on a miss, `minDist` of the
node's leaf positions is computed (fuel-indexed, hence the `Option`) and
stored.  Returns the served value and the updated cache. -/
noncomputable def clusterSpacingMemo (fuel : ℕ) (cache : List (ℝ × WithTop ℝ))
    (n : FocusNode) : Option (WithTop ℝ × List (ℝ × WithTop ℝ)) :=
  match lookupKey cache n.value with
  | some v => some (v, cache)
  | none => (minDistFuel fuel n.leafPos).map fun v => (v, (n.value, v) :: cache)

/-- `this.clusterBounds`, i.e.
`memoize(clusterBounds, (node, depth) => node.value + "," + depth)`,
called by `focus` at `depth = node.depth`: the key is the
`value`/`depth` pair (the string concatenation separates the two numbers). -/
noncomputable def clusterBoundsMemo (cache : List ((ℝ × ℕ) × Rect ℝ)) (n : FocusNode) :
    Rect ℝ × List ((ℝ × ℕ) × Rect ℝ) :=
  match lookupKey cache (n.value, n.depth) with
  | some r => (r, cache)
  | none =>
    (clusterBoundsList n.leafPos, ((n.value, n.depth), clusterBoundsList n.leafPos) :: cache)

/-- `Chart.focus(node)` (second source variant): `maxScale` comes from the
memoized cluster bounds margin-expanded by 1.1 and fit to the frame, and
the scale actually used for the emitted view is
`Math.min(maxScale, 50 / this.clusterSpacing(node))`, with the spacing
served from the value-keyed cache.  Returns the emitted view
`(x, y, scale)` and the updated caches; `none` when the underlying
`minDist` recursion does not finish within `fuel`. -/
noncomputable def focusMemo (fuel : ℕ) (st : ChartState) (n : FocusNode)
    (frameWidth frameHeight : ℝ) : Option ((ℝ × ℝ × WithTop ℝ) × ChartState) :=
  let bs := clusterBoundsMemo st.boundsCache n
  let v := rectToView (fitRect (scaleRectangle bs.1 1.1) frameWidth frameHeight) frameWidth
  (clusterSpacingMemo fuel st.spacingCache n).map fun sv =>
    ((v.1, v.2.1, min (↑v.2.2) (jsDivInf 50 sv.1)), ⟨sv.2, bs.2⟩)


/-! ## Geometry claims -/

/-- C4 (amended): for non-negative content dimensions and a positive frame,
`fitRect` preserves the frame's proportion (`width * fh = fw * height`),
contains the content (`width ≥ contentWidth`, `height ≥ contentHeight`)
with equality in at least one dimension, and keeps the content's center. -/
theorem fitRect_spec (r : Rect ℚ) (fw fh : ℚ) (hcw : 0 ≤ r.width) (hch : 0 ≤ r.height)
    (hfw : 0 < fw) (hfh : 0 < fh) :
    (fitRect r fw fh).width * fh = fw * (fitRect r fw fh).height ∧
    r.width ≤ (fitRect r fw fh).width ∧
    r.height ≤ (fitRect r fw fh).height ∧
    ((fitRect r fw fh).width = r.width ∨ (fitRect r fw fh).height = r.height) ∧
    (fitRect r fw fh).left + (fitRect r fw fh).width / 2 = r.left + r.width / 2 ∧
    (fitRect r fw fh).top + (fitRect r fw fh).height / 2 = r.top + r.height / 2 := by
  have hfw' : fw ≠ 0 := ne_of_gt hfw
  have hfh' : fh ≠ 0 := ne_of_gt hfh
  refine ⟨by simp only [fitRect]; ring, ?_, ?_, ?_, by simp only [fitRect]; ring,
    by simp only [fitRect]; ring⟩
  · simp only [fitRect]
    have h1 : r.width / fw ≤ max (r.width / fw) (r.height / fh) := le_max_left _ _
    calc r.width = fw * (r.width / fw) := by field_simp
    _ ≤ fw * max (r.width / fw) (r.height / fh) := by
        exact mul_le_mul_of_nonneg_left h1 (le_of_lt hfw)
  · simp only [fitRect]
    have h1 : r.height / fh ≤ max (r.width / fw) (r.height / fh) := le_max_right _ _
    calc r.height = fh * (r.height / fh) := by field_simp
    _ ≤ fh * max (r.width / fw) (r.height / fh) := by
        exact mul_le_mul_of_nonneg_left h1 (le_of_lt hfh)
  · simp only [fitRect]
    rcases le_total (r.width / fw) (r.height / fh) with h | h
    · right
      rw [max_eq_right h]
      field_simp
    · left
      rw [max_eq_left h]
      field_simp

/-- C4 witness: the amended contract, instantiated at content
`(0,0,3,1)` in a `2 × 1` frame. -/
theorem fitRect_spec_witness :
    (0:ℚ) ≤ 3 ∧ (0:ℚ) ≤ 1 ∧ (0:ℚ) < 2 ∧ (0:ℚ) < 1 ∧
    ((fitRect (Rect.mk (0:ℚ) 0 3 1) 2 1).width * 1 = 2 * (fitRect (Rect.mk (0:ℚ) 0 3 1) 2 1).height ∧
     (Rect.mk (0:ℚ) 0 3 1).width ≤ (fitRect (Rect.mk (0:ℚ) 0 3 1) 2 1).width ∧
     (Rect.mk (0:ℚ) 0 3 1).height ≤ (fitRect (Rect.mk (0:ℚ) 0 3 1) 2 1).height ∧
     ((fitRect (Rect.mk (0:ℚ) 0 3 1) 2 1).width = (Rect.mk (0:ℚ) 0 3 1).width ∨
      (fitRect (Rect.mk (0:ℚ) 0 3 1) 2 1).height = (Rect.mk (0:ℚ) 0 3 1).height) ∧
     (fitRect (Rect.mk (0:ℚ) 0 3 1) 2 1).left + (fitRect (Rect.mk (0:ℚ) 0 3 1) 2 1).width / 2
        = (Rect.mk (0:ℚ) 0 3 1).left + (Rect.mk (0:ℚ) 0 3 1).width / 2 ∧
     (fitRect (Rect.mk (0:ℚ) 0 3 1) 2 1).top + (fitRect (Rect.mk (0:ℚ) 0 3 1) 2 1).height / 2
        = (Rect.mk (0:ℚ) 0 3 1).top + (Rect.mk (0:ℚ) 0 3 1).height / 2) :=
  ⟨by norm_num, by norm_num, by norm_num, by norm_num,
    fitRect_spec (Rect.mk (0:ℚ) 0 3 1) 2 1 (by norm_num) (by norm_num) (by norm_num) (by norm_num)⟩

/-- C4 counterexample: for content `(0,0,2,1)` in a `2 × 1` frame — an
input satisfying all of the claim's hypotheses — the fitted rectangle
equals the content in BOTH dimensions, contradicting the claim's
"equality in at most one of the two dimensions". -/
theorem fitRect_both_dims_equal :
    (0:ℚ) ≤ 2 ∧ (0:ℚ) ≤ 1 ∧ (0:ℚ) < 2 ∧ (0:ℚ) < 1 ∧
    (fitRect (Rect.mk (0:ℚ) 0 2 1) 2 1).width = (Rect.mk (0:ℚ) 0 2 1).width ∧
    (fitRect (Rect.mk (0:ℚ) 0 2 1) 2 1).height = (Rect.mk (0:ℚ) 0 2 1).height := by
  norm_num [fitRect]

/-- C5: `scaleRectangle` composes multiplicatively
(`scaleRectangle (scaleRectangle r a) b = scaleRectangle r (a*b)`) and
preserves the rectangle's center. -/
theorem scaleRectangle_comp_center (r : Rect ℚ) (a b : ℚ) :
    scaleRectangle (scaleRectangle r a) b = scaleRectangle r (a * b) ∧
    (scaleRectangle r a).left + (scaleRectangle r a).width / 2 = r.left + r.width / 2 ∧
    (scaleRectangle r a).top + (scaleRectangle r a).height / 2 = r.top + r.height / 2 := by
  refine ⟨?_, by simp only [scaleRectangle]; ring, by simp only [scaleRectangle]; ring⟩
  simp only [scaleRectangle, Rect.mk.injEq]
  refine ⟨by ring, by ring, by ring, by ring⟩

/-- C9: the view produced by `rectToView (fitRect bounds frame) frame.width`
has its center (the first two components) exactly equal to the center of
`bounds`. -/
theorem rectToView_fitRect_center (r : Rect ℚ) (fw fh : ℚ)
    (hbw : 0 < r.width) (hbh : 0 < r.height) (hfw : 0 < fw) (hfh : 0 < fh) :
    (rectToView (fitRect r fw fh) fw).1 = r.left + r.width / 2 ∧
    (rectToView (fitRect r fw fh) fw).2.1 = r.top + r.height / 2 := by
  constructor <;> · simp only [rectToView, fitRect]; ring

/-- C9 witness: instantiated at bounds `(1,1,4,3)` in a `2 × 1` frame. -/
theorem rectToView_fitRect_center_witness :
    (0:ℚ) < 4 ∧ (0:ℚ) < 3 ∧ (0:ℚ) < 2 ∧ (0:ℚ) < 1 ∧
    ((rectToView (fitRect (Rect.mk (1:ℚ) 1 4 3) 2 1) 2).1
        = (Rect.mk (1:ℚ) 1 4 3).left + (Rect.mk (1:ℚ) 1 4 3).width / 2 ∧
     (rectToView (fitRect (Rect.mk (1:ℚ) 1 4 3) 2 1) 2).2.1
        = (Rect.mk (1:ℚ) 1 4 3).top + (Rect.mk (1:ℚ) 1 4 3).height / 2) :=
  ⟨by norm_num, by norm_num, by norm_num, by norm_num,
    rectToView_fitRect_center (Rect.mk (1:ℚ) 1 4 3) 2 1 (by norm_num) (by norm_num) (by norm_num)
      (by norm_num)⟩

/-! ## Tree claims -/

theorem jsIndexOf_eq_neg_one {α : Type} [DecidableEq α] (l : List α) (a : α) (h : a ∉ l) :
    jsIndexOf l a = -1 := by
  induction l with
  | nil => rfl
  | cons x xs ih =>
    have hx : x ≠ a := fun hxa => h (hxa ▸ List.mem_cons_self x xs)
    have ha : a ∉ xs := fun hxs => h (List.mem_cons_of_mem x hxs)
    simp [jsIndexOf, if_neg hx, ih ha]

theorem drop_mem_ancestors (p : List ℕ) (k : ℕ) (hk : k ≤ p.length) :
    p.drop k ∈ ancestors p := by
  induction p generalizing k with
  | nil =>
    have : k = 0 := by simpa using hk
    subst this
    simp [ancestors]
  | cons i rest ih =>
    cases k with
    | zero => simp [ancestors]
    | succ k' =>
      simp only [List.drop_succ_cons, ancestors, List.mem_cons]
      exact Or.inr (ih k' (by simpa using hk))

theorem mem_ancestors_iff (p b : List ℕ) :
    b ∈ ancestors p ↔ ∃ k, k ≤ p.length ∧ b = p.drop k := by
  constructor
  · intro hb
    induction p with
    | nil =>
      simp only [ancestors, List.mem_singleton] at hb
      exact ⟨0, by simp [hb]⟩
    | cons i rest ih =>
      simp only [ancestors, List.mem_cons] at hb
      rcases hb with h | h
      · exact ⟨0, by simp [h]⟩
      · obtain ⟨k, hk, hb⟩ := ih h
        exact ⟨k + 1, by simpa using hk, by simpa using hb⟩
  · rintro ⟨k, hk, rfl⟩
    exact drop_mem_ancestors p k hk

theorem jsIndexOf_ancestors_drop (p : List ℕ) (k : ℕ) (hk : k ≤ p.length) :
    jsIndexOf (ancestors p) (p.drop k) = (k : ℤ) := by
  induction p generalizing k with
  | nil =>
    have : k = 0 := by simpa using hk
    subst this
    rfl
  | cons i rest ih =>
    cases k with
    | zero =>
      simp only [List.drop_zero, ancestors, jsIndexOf, if_pos rfl]
      rfl
    | succ k' =>
      have hk' : k' ≤ rest.length := by simpa using hk
      have hne : i :: rest ≠ rest.drop k' := by
        intro h
        have := congrArg List.length h
        simp [List.length_drop] at this
        omega
      simp only [List.drop_succ_cons, ancestors, jsIndexOf, if_neg hne]
      rw [ih k' hk']
      have : ((k' : ℤ)) ≠ -1 := by omega
      simp only [if_neg this]
      omega

theorem ancestors_getD (p : List ℕ) (k : ℕ) (hk : k ≤ p.length) :
    (ancestors p).getD k [] = p.drop k := by
  induction p generalizing k with
  | nil =>
    have : k = 0 := by simpa using hk
    subst this
    rfl
  | cons i rest ih =>
    cases k with
    | zero => simp [ancestors]
    | succ k' => simpa [ancestors] using ih k' (by simpa using hk)

theorem whichBranch_drop (target : List ℕ) (k : ℕ) (hk : k + 1 ≤ target.length) :
    whichBranch (target.drop (k + 1)) target = whichChild (target.drop k) := by
  simp only [whichBranch]
  rw [jsIndexOf_ancestors_drop target (k + 1) hk]
  rw [if_neg (by omega)]
  rw [show ((((k : ℕ) + 1 : ℕ) : ℤ) - 1).toNat = k by omega]
  rw [ancestors_getD target k (by omega)]

/-- C6: `whichBranch` returns `-1` exactly when the branch equals the
target or is not in the target's ancestor chain; and on the ancestor chain
`[target, p1, ..., root]`, `whichBranch(p_(k+1), target)` is
`whichChild(p_k)`. -/
theorem whichBranch_spec (branch target : List ℕ) :
    (whichBranch branch target = -1 ↔ branch = target ∨ branch ∉ ancestors target) ∧
    (∀ k, k < target.length →
      whichBranch ((ancestors target).getD (k + 1) []) target
        = whichChild ((ancestors target).getD k [])) := by
  constructor
  · by_cases hmem : branch ∈ ancestors target
    · obtain ⟨k, hk, rfl⟩ := (mem_ancestors_iff target branch).mp hmem
      cases k with
      | zero =>
        have h0 : jsIndexOf (ancestors target) (target.drop 0) = 0 :=
          jsIndexOf_ancestors_drop target 0 (by omega)
        rw [whichBranch]
        rw [h0]
        simp
      | succ k' =>
        have hres := whichBranch_drop target k' hk
        constructor
        · intro h
          rw [hres] at h
          have hlt : k' < target.length := by omega
          rw [List.drop_eq_getElem_cons hlt] at h
          simp only [whichChild] at h
          omega
        · intro h
          rcases h with h | h
          · have := congrArg List.length h
            simp [List.length_drop] at this
            omega
          · exact absurd hmem h
    · constructor
      · intro _
        exact Or.inr hmem
      · intro _
        rw [whichBranch, jsIndexOf_eq_neg_one _ _ hmem]
        simp
  · intro k hk
    rw [ancestors_getD target (k + 1) (by omega), ancestors_getD target k (by omega)]
    exact whichBranch_drop target k (by omega)

/-- C6 witness: instantiated at `branch = [0]` (the root's child 0) and
`target = [2, 0]` (that child's child 2). -/
theorem whichBranch_spec_witness :
    (whichBranch [0] [2, 0] = -1 ↔ [0] = [2, 0] ∨ [0] ∉ ancestors [2, 0]) ∧
    (∀ k, k < ([2, 0] : List ℕ).length →
      whichBranch ((ancestors [2, 0]).getD (k + 1) []) [2, 0]
        = whichChild ((ancestors [2, 0]).getD k [])) :=
  whichBranch_spec [0] [2, 0]

/-- C7: under the parent-collision-avoiding policy, every non-root node's
color index differs from its parent's. -/
theorem colorIndex_ne_parent (i : ℕ) (p : List ℕ) :
    colorIndex (i :: p) ≠ colorIndex p := by
  simp only [colorIndex]
  split <;> omega

theorem subtreeAt_append (a b : List ℕ) (t : CTree) :
    subtreeAt (a ++ b) t = (subtreeAt a t).bind (subtreeAt b) := by
  induction a generalizing t with
  | nil => simp [subtreeAt]
  | cons i a' ih =>
    simp only [List.cons_append, subtreeAt]
    cases (childrenOf t)[i]? with
    | none => rfl
    | some c => exact ih c

/-- C10: whenever `whichBranch branch target ≠ -1` for a target that is an
actual node of the tree, `branch` is an actual node too and the returned
value is a valid index into its (necessarily non-empty) children list —
so `currentFocus.children[branchIndex]` in `handleNodeClick` and
`leafColor` never indexes out of bounds. -/
theorem whichBranch_index_bounds (t : CTree) (branch target : List ℕ)
    (hv : validNode t target) (hne : whichBranch branch target ≠ -1) :
    ∃ tb, subtreeAt branch.reverse t = some tb ∧
      0 ≤ whichBranch branch target ∧
      (whichBranch branch target).toNat < (childrenOf tb).length := by
  by_cases hmem : branch ∈ ancestors target
  · obtain ⟨k, hk, rfl⟩ := (mem_ancestors_iff target branch).mp hmem
    cases k with
    | zero =>
      exfalso
      apply hne
      have h0 : jsIndexOf (ancestors target) (target.drop 0) = 0 :=
        jsIndexOf_ancestors_drop target 0 (by omega)
      rw [whichBranch, h0]
      simp
    | succ k' =>
      have hres := whichBranch_drop target k' hk
      have hlt : k' < target.length := by omega
      rw [List.drop_eq_getElem_cons hlt] at hres
      set j := target[k'] with hj
      have hsplit : target = target.take k' ++ (j :: target.drop (k' + 1)) := by
        rw [← List.drop_eq_getElem_cons hlt]
        simp
      have hval : (subtreeAt ((j :: target.drop (k' + 1)).reverse) t).isSome := by
        have hv2 : (subtreeAt target.reverse t).isSome := hv
        rw [hsplit, List.reverse_append, subtreeAt_append] at hv2
        rcases Option.isSome_iff_exists.mp hv2 with ⟨u, hu⟩
        rcases Option.bind_eq_some.mp hu with ⟨v, hv1, _⟩
        exact Option.isSome_iff_exists.mpr ⟨v, hv1⟩
      rw [show (j :: target.drop (k' + 1)).reverse = (target.drop (k' + 1)).reverse ++ [j] by
        simp] at hval
      rw [subtreeAt_append] at hval
      rcases Option.isSome_iff_exists.mp hval with ⟨u, hu⟩
      rcases Option.bind_eq_some.mp hu with ⟨tb, htb, hj2⟩
      refine ⟨tb, htb, ?_, ?_⟩
      · rw [hres]
        simp [whichChild]
      · rw [hres]
        simp only [whichChild, Int.toNat_ofNat]
        by_contra hge
        push_neg at hge
        rw [subtreeAt] at hj2
        rw [List.getElem?_eq_none (by omega)] at hj2
        simp at hj2
  · exact absurd (by rw [whichBranch, jsIndexOf_eq_neg_one _ _ hmem]; simp) hne

/-- C10 witness: root as branch, a depth-2 leaf as target. -/
theorem whichBranch_index_bounds_witness :
    ∃ tb, subtreeAt ([] : List ℕ).reverse
        (CTree.node [CTree.node [], CTree.node [CTree.node [], CTree.node []]]) = some tb ∧
      0 ≤ whichBranch [] [0, 1] ∧
      (whichBranch [] [0, 1]).toNat < (childrenOf tb).length :=
  whichBranch_index_bounds
    (CTree.node [CTree.node [], CTree.node [CTree.node [], CTree.node []]]) [] [0, 1]
    (by decide) (by decide)

/-! ## Closest-pair claims -/

-- ### generic fold-min lemmas

theorem foldl_min_le_init (f : Point → ℝ) :
    ∀ (l : List Point) (m : WithTop ℝ), l.foldl (fun acc r => min acc ↑(f r)) m ≤ m := by
  intro l
  induction l with
  | nil => intro m; exact le_refl m
  | cons r l ih =>
    intro m
    exact le_trans (ih (min m ↑(f r))) (min_le_left _ _)

theorem foldl_min_le_mem (f : Point → ℝ) :
    ∀ (l : List Point) (m : WithTop ℝ) (q : Point), q ∈ l →
      l.foldl (fun acc r => min acc ↑(f r)) m ≤ ↑(f q) := by
  intro l
  induction l with
  | nil => intro m q hq; exact absurd hq (List.not_mem_nil q)
  | cons r l ih =>
    intro m q hq
    rcases List.mem_cons.mp hq with rfl | hq'
    · exact le_trans (foldl_min_le_init f l (min m ↑(f q))) (min_le_right _ _)
    · exact ih (min m ↑(f r)) q hq'

theorem foldl_min_cases (f : Point → ℝ) :
    ∀ (l : List Point) (m : WithTop ℝ),
      l.foldl (fun acc r => min acc ↑(f r)) m = m ∨
      ∃ q ∈ l, l.foldl (fun acc r => min acc ↑(f r)) m = ↑(f q) := by
  intro l
  induction l with
  | nil => intro m; exact Or.inl rfl
  | cons r l ih =>
    intro m
    rcases ih (min m ↑(f r)) with h | ⟨q, hq, h⟩
    · rcases min_choice m ↑(f r) with hm | hm
      · exact Or.inl (by rw [List.foldl_cons, h, hm])
      · exact Or.inr ⟨r, List.mem_cons_self r l, by rw [List.foldl_cons, h, hm]⟩
    · exact Or.inr ⟨q, List.mem_cons_of_mem r hq, by rw [List.foldl_cons, h]⟩

-- ### innerScan lemmas

theorem innerScan_le_init (subMin : WithTop ℝ) (l : Point) (rs : List Point) (m : WithTop ℝ) :
    innerScan subMin l rs m ≤ m :=
  foldl_min_le_init _ _ m

theorem innerScan_le_mem (subMin : WithTop ℝ) (l : Point) (rs : List Point) (m : WithTop ℝ)
    (q : Point) (hq : q ∈ rs.takeWhile fun r => decide ((↑(r.2 - l.2) : WithTop ℝ) < subMin)) :
    innerScan subMin l rs m ≤ ↑(Real.sqrt ((q.2 - l.2) ^ 2 + (q.1 - l.1) ^ 2)) :=
  foldl_min_le_mem _ _ m q hq

theorem innerScan_cases (subMin : WithTop ℝ) (l : Point) (rs : List Point) (m : WithTop ℝ) :
    innerScan subMin l rs m = m ∨
    ∃ q ∈ rs, innerScan subMin l rs m = ↑(Real.sqrt ((q.2 - l.2) ^ 2 + (q.1 - l.1) ^ 2)) := by
  rcases foldl_min_cases (fun r => Real.sqrt ((r.2 - l.2) ^ 2 + (r.1 - l.1) ^ 2))
      (rs.takeWhile fun r => decide ((↑(r.2 - l.2) : WithTop ℝ) < subMin)) m with h | ⟨q, hq, h⟩
  · exact Or.inl h
  · exact Or.inr ⟨q, (List.takeWhile_sublist _).subset hq, h⟩

-- ### scanLoop lemmas

theorem scanLoop_le_init (subMin : WithTop ℝ) :
    ∀ (ls rs : List Point) (m : WithTop ℝ), scanLoop subMin ls rs m ≤ m := by
  intro ls
  induction ls with
  | nil => intro rs m; exact le_refl m
  | cons l ls ih =>
    intro rs m
    exact le_trans (ih _ _) (innerScan_le_init _ _ _ _)

theorem scanLoop_cases (subMin : WithTop ℝ) :
    ∀ (ls rs : List Point) (m : WithTop ℝ),
      scanLoop subMin ls rs m = m ∨
      ∃ p ∈ ls, ∃ q ∈ rs,
        scanLoop subMin ls rs m = ↑(Real.sqrt ((q.2 - p.2) ^ 2 + (q.1 - p.1) ^ 2)) := by
  intro ls
  induction ls with
  | nil => intro rs m; exact Or.inl rfl
  | cons l ls ih =>
    intro rs m
    rcases ih (rs.dropWhile fun r => decide (subMin < (↑(l.2 - r.2) : WithTop ℝ)))
        (innerScan subMin l (rs.dropWhile fun r => decide (subMin < (↑(l.2 - r.2) : WithTop ℝ))) m)
      with h | ⟨p, hp, q, hq, h⟩
    · rcases innerScan_cases subMin l
          (rs.dropWhile fun r => decide (subMin < (↑(l.2 - r.2) : WithTop ℝ))) m with h2 | ⟨q, hq, h2⟩
      · exact Or.inl (by rw [scanLoop, h, h2])
      · refine Or.inr ⟨l, List.mem_cons_self l ls, q, (List.dropWhile_sublist _).subset hq, ?_⟩
        rw [scanLoop, h, h2]
    · refine Or.inr ⟨p, List.mem_cons_of_mem l hp, q, (List.dropWhile_sublist _).subset hq, ?_⟩
      rw [scanLoop, h]

theorem mem_dropWhile_of_pred_false {pb : Point → Bool} :
    ∀ {rs : List Point} {q : Point}, q ∈ rs → pb q = false → q ∈ rs.dropWhile pb := by
  intro rs
  induction rs with
  | nil => intro q hq _; exact absurd hq (List.not_mem_nil q)
  | cons r rest ih =>
    intro q hq hpb
    rcases List.mem_cons.mp hq with rfl | hq'
    · rw [List.dropWhile_cons, hpb]
      simp
    · rw [List.dropWhile_cons]
      by_cases hr : pb r = true
      · rw [if_pos hr]
        exact ih hq' hpb
      · rw [if_neg hr]
        exact List.mem_cons_of_mem r hq'

theorem mem_takeWhile_of_sorted {pt : Point → Bool}
    (hmono : ∀ a b : Point, a.2 ≤ b.2 → pt b = true → pt a = true) :
    ∀ {rs : List Point}, rs.Pairwise (fun a b => a.2 ≤ b.2) →
      ∀ {q : Point}, q ∈ rs → pt q = true → q ∈ rs.takeWhile pt := by
  intro rs
  induction rs with
  | nil => intro _ q hq _; exact absurd hq (List.not_mem_nil q)
  | cons r rest ih =>
    intro hsort q hq hpt
    rcases List.mem_cons.mp hq with rfl | hq'
    · rw [List.takeWhile_cons, if_pos hpt]
      exact List.mem_cons_self q _
    · have hr : pt r = true :=
        hmono r q ((List.pairwise_cons.mp hsort).1 q hq') hpt
      rw [List.takeWhile_cons, if_pos hr]
      exact List.mem_cons_of_mem r (ih (List.pairwise_cons.mp hsort).2 hq' hpt)

theorem scanLoop_complete (subMin : WithTop ℝ) :
    ∀ (ls rs : List Point) (m : WithTop ℝ) (p q : Point),
      ls.Pairwise (fun a b => a.2 ≤ b.2) → rs.Pairwise (fun a b => a.2 ≤ b.2) →
      p ∈ ls → q ∈ rs →
      (↑(q.2 - p.2) : WithTop ℝ) < subMin → ¬ subMin < (↑(p.2 - q.2) : WithTop ℝ) →
      scanLoop subMin ls rs m ≤ ↑(Real.sqrt ((q.2 - p.2) ^ 2 + (q.1 - p.1) ^ 2)) := by
  intro ls
  induction ls with
  | nil => intro rs m p q _ _ hp _ _ _; exact absurd hp (List.not_mem_nil p)
  | cons l ls ih =>
    intro rs m p q hlsort hrsort hp hq h1 h2
    rw [scanLoop]
    rcases List.mem_cons.mp hp with rfl | hp'
    · -- the outer loop is at `p` itself: `q` survives the dropWhile and is
      -- inside the takeWhile window
      have hqdrop : q ∈ rs.dropWhile fun r => decide (subMin < (↑(p.2 - r.2) : WithTop ℝ)) :=
        mem_dropWhile_of_pred_false hq (by simpa using h2)
      have hqtake : q ∈ (rs.dropWhile
          fun r => decide (subMin < (↑(p.2 - r.2) : WithTop ℝ))).takeWhile
          fun r => decide ((↑(r.2 - p.2) : WithTop ℝ) < subMin) := by
        apply mem_takeWhile_of_sorted
          (fun a b hab hb => ?_)
          (hrsort.sublist (List.dropWhile_sublist _)) hqdrop (by simpa using h1)
        have hb' : (↑(b.2 - p.2) : WithTop ℝ) < subMin := by simpa using hb
        have : (↑(a.2 - p.2) : WithTop ℝ) ≤ ↑(b.2 - p.2) := by
          exact_mod_cast sub_le_sub_right hab p.2
        simpa using lt_of_le_of_lt this hb'
      exact le_trans (scanLoop_le_init subMin ls _ _) (innerScan_le_mem _ _ _ _ q hqtake)
    · -- the outer loop will reach `p` later; `q` survives this dropWhile too
      have hlq : l.2 ≤ p.2 := (List.pairwise_cons.mp hlsort).1 p hp'
      have hkeep : ¬ subMin < (↑(l.2 - q.2) : WithTop ℝ) := by
        intro hcon
        apply h2
        have : (↑(l.2 - q.2) : WithTop ℝ) ≤ ↑(p.2 - q.2) := by
          exact_mod_cast sub_le_sub_right hlq q.2
        exact lt_of_lt_of_le hcon this
      have hqdrop : q ∈ rs.dropWhile fun r => decide (subMin < (↑(l.2 - r.2) : WithTop ℝ)) :=
        mem_dropWhile_of_pred_false hq (by simpa using hkeep)
      exact ih _ _ p q (List.pairwise_cons.mp hlsort).2
        (hrsort.sublist (List.dropWhile_sublist _)) hp' hqdrop h1 h2

-- ### sortByY lemmas

theorem sortByY_sorted (l : List Point) : (sortByY l).Pairwise fun a b => a.2 ≤ b.2 := by
  have h := @List.sorted_mergeSort Point (fun a b : Point => decide (a.2 ≤ b.2))
    (fun a b c hab hbc => by
      simp only [decide_eq_true_eq] at *
      exact le_trans hab hbc)
    (fun a b => by
      simp only [Bool.or_eq_true, decide_eq_true_eq]
      exact le_total a.2 b.2) l
  exact h.imp (by simp)

theorem mem_sortByY {l : List Point} {p : Point} : p ∈ sortByY l ↔ p ∈ l :=
  List.mem_mergeSort

-- ### euclid facts

theorem euclid_comm (p q : Point) : euclid p q = euclid q p := by
  unfold euclid
  congr 1
  ring

theorem scanDist_eq (p q : Point) :
    Real.sqrt ((q.2 - p.2) ^ 2 + (q.1 - p.1) ^ 2) = euclid p q := by
  unfold euclid
  congr 1
  ring

theorem sub_fst_le_euclid (p q : Point) : q.1 - p.1 ≤ euclid p q := by
  have h1 : |p.1 - q.1| ≤ euclid p q := by
    rw [← Real.sqrt_sq_eq_abs]
    exact Real.sqrt_le_sqrt (le_add_of_nonneg_right (sq_nonneg _))
  calc q.1 - p.1 ≤ |p.1 - q.1| := by rw [abs_sub_comm]; exact le_abs_self _
  _ ≤ euclid p q := h1

theorem sub_snd_le_euclid (p q : Point) : q.2 - p.2 ≤ euclid p q := by
  have h1 : |p.2 - q.2| ≤ euclid p q := by
    rw [← Real.sqrt_sq_eq_abs]
    exact Real.sqrt_le_sqrt (le_add_of_nonneg_left (sq_nonneg _))
  calc q.2 - p.2 ≤ |p.2 - q.2| := by rw [abs_sub_comm]; exact le_abs_self _
  _ ≤ euclid p q := h1

-- ### bruteForceMin lemmas

theorem minOfDists_nil : minOfDists [] = ⊤ := rfl

theorem minOfDists_cons (x : ℝ) (xs : List ℝ) :
    minOfDists (x :: xs) = min (↑x) (minOfDists xs) := rfl

theorem minOfDists_le_mem {d : ℝ} : ∀ {l : List ℝ}, d ∈ l → minOfDists l ≤ ↑d := by
  intro l
  induction l with
  | nil => intro h; exact absurd h (List.not_mem_nil d)
  | cons x xs ih =>
    intro h
    rw [minOfDists_cons]
    rcases List.mem_cons.mp h with rfl | h'
    · exact min_le_left _ _
    · exact le_trans (min_le_right _ _) (ih h')

theorem minOfDists_cases :
    ∀ (l : List ℝ), minOfDists l = ⊤ ∨ ∃ d ∈ l, minOfDists l = ↑d := by
  intro l
  induction l with
  | nil => exact Or.inl rfl
  | cons x xs ih =>
    rw [minOfDists_cons]
    rcases min_choice ((x : ℝ) : WithTop ℝ) (minOfDists xs) with hm | hm
    · exact Or.inr ⟨x, List.mem_cons_self x xs, hm⟩
    · rcases ih with h | ⟨d, hd, h⟩
      · exact Or.inl (by rw [hm, h])
      · exact Or.inr ⟨d, List.mem_cons_of_mem x hd, by rw [hm, h]⟩

theorem bruteForceMin_le_mem {pts : List Point} {d : ℝ} (hd : d ∈ pairDists pts) :
    bruteForceMin pts ≤ ↑d :=
  minOfDists_le_mem hd

theorem bruteForceMin_cases (pts : List Point) :
    bruteForceMin pts = ⊤ ∨ ∃ d ∈ pairDists pts, bruteForceMin pts = ↑d :=
  minOfDists_cases _

/-- Any value with the brute-force minimum's two characteristic properties
is the brute-force minimum. -/
theorem bruteForceMin_eq_of {pts : List Point} {v : WithTop ℝ}
    (hle : ∀ d ∈ pairDists pts, v ≤ ↑d)
    (hcases : v = ⊤ ∨ ∃ d ∈ pairDists pts, v = ↑d) : v = bruteForceMin pts := by
  apply le_antisymm
  · rcases bruteForceMin_cases pts with h | ⟨d, hd, h⟩
    · rw [h]; exact le_top
    · rw [h]; exact hle d hd
  · rcases hcases with rfl | ⟨d, hd, rfl⟩
    · exact le_top
    · exact bruteForceMin_le_mem hd

theorem euclid_mem_pairDists :
    ∀ {pts : List Point} {p q : Point}, [p, q].Sublist pts → euclid p q ∈ pairDists pts := by
  intro pts
  induction pts with
  | nil => intro p q h; exact absurd h.length_le (by simp)
  | cons a rest ih =>
    intro p q hsub
    rw [pairDists, List.mem_append]
    rcases List.sublist_cons_iff.mp hsub with h | ⟨r, hr, hrsub⟩
    · exact Or.inr (ih h)
    · have hp : p = a := by injection hr
      have hq : r = [q] := by injection hr with h1 h2; exact h2.symm
      subst hp
      subst hq
      exact Or.inl (List.mem_map.mpr ⟨q, List.singleton_sublist.mp hrsub, rfl⟩)

theorem mem_pairDists_iff {pts : List Point} {d : ℝ} :
    d ∈ pairDists pts ↔ ∃ p q : Point, [p, q].Sublist pts ∧ d = euclid p q := by
  constructor
  · intro hd
    induction pts with
    | nil => exact absurd hd (List.not_mem_nil d)
    | cons a rest ih =>
      rw [pairDists, List.mem_append] at hd
      rcases hd with h | h
      · obtain ⟨q, hq, rfl⟩ := List.mem_map.mp h
        exact ⟨a, q, (List.singleton_sublist.mpr hq).cons₂ a, rfl⟩
      · obtain ⟨p, q, hsub, rfl⟩ := ih h
        exact ⟨p, q, hsub.cons a, rfl⟩
  · rintro ⟨p, q, hsub, rfl⟩
    exact euclid_mem_pairDists hsub

theorem pair_sublist_of_mem_mem_ne {α : Type} {l : List α} {a b : α}
    (ha : a ∈ l) (hb : b ∈ l) (hab : a ≠ b) :
    [a, b].Sublist l ∨ [b, a].Sublist l := by
  induction l with
  | nil => exact absurd ha (List.not_mem_nil a)
  | cons x rest ih =>
    rcases List.mem_cons.mp ha with rfl | ha'
    · have hb' : b ∈ rest := by
        rcases List.mem_cons.mp hb with h | h
        · exact absurd h.symm hab
        · exact h
      exact Or.inl ((List.singleton_sublist.mpr hb').cons₂ a)
    · rcases List.mem_cons.mp hb with rfl | hb'
      · exact Or.inr ((List.singleton_sublist.mpr ha').cons₂ b)
      · rcases ih ha' hb' with h | h
        · exact Or.inl (h.cons x)
        · exact Or.inr (h.cons x)

theorem euclid_mem_pairDists_of_ne {pts : List Point} {p q : Point}
    (hp : p ∈ pts) (hq : q ∈ pts) (hpq : p ≠ q) : euclid p q ∈ pairDists pts := by
  rcases pair_sublist_of_mem_mem_ne hp hq hpq with h | h
  · exact euclid_mem_pairDists h
  · rw [euclid_comm]
    exact euclid_mem_pairDists h

theorem pairDists_subset_of_sublist {l₁ l₂ : List Point} (h : l₁.Sublist l₂) {d : ℝ}
    (hd : d ∈ pairDists l₁) : d ∈ pairDists l₂ := by
  obtain ⟨p, q, hsub, rfl⟩ := mem_pairDists_iff.mp hd
  exact euclid_mem_pairDists (hsub.trans h)

-- ### the strip phase computes the brute-force minimum

theorem minDistStep_le_init (subMin : WithTop ℝ) (mid : ℝ) (left right : List Point) :
    minDistStep subMin mid left right ≤ subMin := by
  simp only [minDistStep]
  exact scanLoop_le_init _ _ _ _

theorem minDistStep_le_cross (subMin : WithTop ℝ) (mid : ℝ) (left right : List Point)
    (p q : Point) (hp : p ∈ left) (hq : q ∈ right) (hpl : p.1 < mid) (hqr : mid ≤ q.1) :
    minDistStep subMin mid left right ≤ ↑(euclid p q) := by
  by_cases hfin : (↑(euclid p q) : WithTop ℝ) < subMin
  · have hd1 : mid - p.1 ≤ euclid p q := le_trans (by linarith) (sub_fst_le_euclid p q)
    have hd2 : q.1 - mid ≤ euclid p q := le_trans (by linarith) (sub_fst_le_euclid p q)
    have hd3 : q.2 - p.2 ≤ euclid p q := sub_snd_le_euclid p q
    have hd4 : p.2 - q.2 ≤ euclid p q := by
      rw [euclid_comm]
      exact sub_snd_le_euclid q p
    have hpmem :
        p ∈ sortByY (left.filter fun r => decide ((↑(mid - r.1) : WithTop ℝ) < subMin)) := by
      rw [mem_sortByY, List.mem_filter]
      refine ⟨hp, ?_⟩
      simp only [decide_eq_true_eq]
      exact lt_of_le_of_lt (by exact_mod_cast hd1) hfin
    have hqmem :
        q ∈ sortByY (right.filter fun r => decide ((↑(r.1 - mid) : WithTop ℝ) < subMin)) := by
      rw [mem_sortByY, List.mem_filter]
      refine ⟨hq, ?_⟩
      simp only [decide_eq_true_eq]
      exact lt_of_le_of_lt (by exact_mod_cast hd2) hfin
    have h1 : (↑(q.2 - p.2) : WithTop ℝ) < subMin :=
      lt_of_le_of_lt (by exact_mod_cast hd3) hfin
    have h2 : ¬ subMin < (↑(p.2 - q.2) : WithTop ℝ) :=
      lt_asymm (lt_of_le_of_lt (by exact_mod_cast hd4) hfin)
    have hstep : minDistStep subMin mid left right ≤
        ↑(Real.sqrt ((q.2 - p.2) ^ 2 + (q.1 - p.1) ^ 2)) := by
      simp only [minDistStep]
      exact scanLoop_complete subMin _ _ _ p q (sortByY_sorted _) (sortByY_sorted _)
        hpmem hqmem h1 h2
    rwa [scanDist_eq] at hstep
  · exact le_trans (minDistStep_le_init _ _ _ _) (not_lt.mp hfin)

theorem minDistStep_eq (pts : List Point) (mid : ℝ) :
    minDistStep
        (min (bruteForceMin (pts.filter fun p => decide (p.1 < mid)))
          (bruteForceMin (pts.filter fun p => decide (mid ≤ p.1)))) mid
        (pts.filter fun p => decide (p.1 < mid)) (pts.filter fun p => decide (mid ≤ p.1))
      = bruteForceMin pts := by
  set left := pts.filter fun p => decide (p.1 < mid) with hleft
  set right := pts.filter fun p => decide (mid ≤ p.1) with hright
  set subMin := min (bruteForceMin left) (bruteForceMin right) with hsubMin
  apply bruteForceMin_eq_of
  · intro d hd
    obtain ⟨p, q, hsub, rfl⟩ := mem_pairDists_iff.mp hd
    have hp : p ∈ pts := hsub.subset (by simp)
    have hq : q ∈ pts := hsub.subset (by simp)
    have hstep_le : minDistStep subMin mid left right ≤ subMin := minDistStep_le_init _ _ _ _
    rcases lt_or_le p.1 mid with hpl | hpr <;> rcases lt_or_le q.1 mid with hql | hqr
    · -- both halves left of the split line: covered by the left recursion
      have hdl : euclid p q ∈ pairDists left := by
        apply euclid_mem_pairDists
        have hfil : [p, q].filter (fun r => decide (r.1 < mid)) = [p, q] := by
          simp [hpl, hql]
        rw [hleft, ← hfil]
        exact hsub.filter _
      exact le_trans hstep_le (le_trans (min_le_left _ _) (bruteForceMin_le_mem hdl))
    · -- p left of the line, q right of it: the cross-strip scan finds it
      exact minDistStep_le_cross subMin mid left right p q
        (List.mem_filter.mpr ⟨hp, by simpa using hpl⟩)
        (List.mem_filter.mpr ⟨hq, by simpa using hqr⟩) hpl hqr
    · -- q left of the line, p right of it
      rw [euclid_comm]
      exact minDistStep_le_cross subMin mid left right q p
        (List.mem_filter.mpr ⟨hq, by simpa using hql⟩)
        (List.mem_filter.mpr ⟨hp, by simpa using hpr⟩) hql hpr
    · -- both right
      have hdr : euclid p q ∈ pairDists right := by
        apply euclid_mem_pairDists
        have hfil : [p, q].filter (fun r => decide (mid ≤ r.1)) = [p, q] := by
          simp [hpr, hqr]
        rw [hright, ← hfil]
        exact hsub.filter _
      exact le_trans hstep_le (le_trans (min_le_right _ _) (bruteForceMin_le_mem hdr))
  · have hval : minDistStep subMin mid left right =
        scanLoop subMin
          (sortByY (left.filter fun r => decide ((↑(mid - r.1) : WithTop ℝ) < subMin)))
          (sortByY (right.filter fun r => decide ((↑(r.1 - mid) : WithTop ℝ) < subMin)))
          subMin := by
      simp only [minDistStep]
    rw [hval]
    rcases scanLoop_cases subMin
        (sortByY (left.filter fun r => decide ((↑(mid - r.1) : WithTop ℝ) < subMin)))
        (sortByY (right.filter fun r => decide ((↑(r.1 - mid) : WithTop ℝ) < subMin)))
        subMin with h | ⟨p, hpmem, q, hqmem, h⟩
    · -- the scan returns subMin, which is one of the recursive minima
      rw [h]
      rcases min_choice (bruteForceMin left) (bruteForceMin right) with hm | hm <;>
        rw [hsubMin, hm]
      · rcases bruteForceMin_cases left with h2 | ⟨d, hd, h2⟩
        · exact Or.inl h2
        · exact Or.inr ⟨d, pairDists_subset_of_sublist (hleft ▸ List.filter_sublist pts) hd, h2⟩
      · rcases bruteForceMin_cases right with h2 | ⟨d, hd, h2⟩
        · exact Or.inl h2
        · exact Or.inr ⟨d, pairDists_subset_of_sublist (hright ▸ List.filter_sublist pts) hd, h2⟩
    · -- the scan returns an actual cross-strip distance
      rw [mem_sortByY, List.mem_filter] at hpmem hqmem
      have hpleft := List.mem_filter.mp hpmem.1
      have hqright := List.mem_filter.mp hqmem.1
      have hplt : p.1 < mid := by simpa using hpleft.2
      have hqge : mid ≤ q.1 := by simpa using hqright.2
      have hpq : p ≠ q := by
        intro hcon
        rw [hcon] at hplt
        exact absurd hqge (not_le.mpr hplt)
      refine Or.inr ⟨euclid p q, euclid_mem_pairDists_of_ne hpleft.1 hqright.1 hpq, ?_⟩
      rw [h, scanDist_eq]

-- ### Math.max / Math.min over nonempty lists

theorem le_foldl_max : ∀ (l : List ℝ) (a : ℝ), a ≤ l.foldl max a := by
  intro l
  induction l with
  | nil => intro a; exact le_refl a
  | cons y l ih => intro a; exact le_trans (le_max_left a y) (ih (max a y))

theorem mem_le_foldl_max : ∀ (l : List ℝ) (a x : ℝ), x ∈ l → x ≤ l.foldl max a := by
  intro l
  induction l with
  | nil => intro a x hx; exact absurd hx (List.not_mem_nil x)
  | cons y l ih =>
    intro a x hx
    rcases List.mem_cons.mp hx with rfl | hx'
    · exact le_trans (le_max_right a x) (le_foldl_max l (max a x))
    · exact ih (max a y) x hx'

theorem foldl_max_mem : ∀ (l : List ℝ) (a : ℝ), l.foldl max a ∈ a :: l := by
  intro l
  induction l with
  | nil => intro a; exact List.mem_cons_self a []
  | cons y l ih =>
    intro a
    rcases List.mem_cons.mp (ih (max a y)) with h | h
    · rcases max_choice a y with hm | hm
      · rw [List.foldl_cons, h, hm]
        simp
      · rw [List.foldl_cons, h, hm]
        simp
    · rw [List.foldl_cons]
      exact List.mem_cons_of_mem a (List.mem_cons_of_mem y h)

theorem foldl_min_le (l : List ℝ) (a : ℝ) : l.foldl min a ≤ a := by
  induction l generalizing a with
  | nil => exact le_refl a
  | cons y l ih => exact le_trans (ih (min a y)) (min_le_left a y)

theorem foldl_min_le_mem' : ∀ (l : List ℝ) (a x : ℝ), x ∈ l → l.foldl min a ≤ x := by
  intro l
  induction l with
  | nil => intro a x hx; exact absurd hx (List.not_mem_nil x)
  | cons y l ih =>
    intro a x hx
    rcases List.mem_cons.mp hx with rfl | hx'
    · exact le_trans (foldl_min_le l (min a x)) (min_le_right a x)
    · exact ih (min a y) x hx'

theorem foldl_min_mem : ∀ (l : List ℝ) (a : ℝ), l.foldl min a ∈ a :: l := by
  intro l
  induction l with
  | nil => intro a; exact List.mem_cons_self a []
  | cons y l ih =>
    intro a
    rcases List.mem_cons.mp (ih (min a y)) with h | h
    · rcases min_choice a y with hm | hm
      · rw [List.foldl_cons, h, hm]
        simp
      · rw [List.foldl_cons, h, hm]
        simp
    · rw [List.foldl_cons]
      exact List.mem_cons_of_mem a (List.mem_cons_of_mem y h)

theorem le_maxList {l : List ℝ} {x : ℝ} (hx : x ∈ l) : x ≤ maxList l := by
  cases l with
  | nil => exact absurd hx (List.not_mem_nil x)
  | cons x₀ xs =>
    rcases List.mem_cons.mp hx with rfl | hx'
    · exact le_foldl_max xs x
    · exact mem_le_foldl_max xs x₀ x hx'

theorem minList_le {l : List ℝ} {x : ℝ} (hx : x ∈ l) : minList l ≤ x := by
  cases l with
  | nil => exact absurd hx (List.not_mem_nil x)
  | cons x₀ xs =>
    rcases List.mem_cons.mp hx with rfl | hx'
    · exact foldl_min_le xs x
    · exact foldl_min_le_mem' xs x₀ x hx'

theorem maxList_mem {l : List ℝ} (hne : l ≠ []) : maxList l ∈ l := by
  cases l with
  | nil => exact absurd rfl hne
  | cons x₀ xs => exact foldl_max_mem xs x₀

theorem minList_mem {l : List ℝ} (hne : l ≠ []) : minList l ∈ l := by
  cases l with
  | nil => exact absurd rfl hne
  | cons x₀ xs => exact foldl_min_mem xs x₀

-- ### fuel monotonicity

theorem minDistFuel_mono : ∀ (f : ℕ) (pts : List Point) (v : WithTop ℝ),
    minDistFuel f pts = some v → ∀ f', f ≤ f' → minDistFuel f' pts = some v := by
  intro f
  induction f with
  | zero =>
    intro pts v h
    exact absurd h (by simp [minDistFuel])
  | succ f ih =>
    intro pts v h f' hf'
    obtain ⟨f'', rfl⟩ : ∃ f'', f' = f'' + 1 := ⟨f' - 1, by omega⟩
    have hff : f ≤ f'' := by omega
    rcases pts with _ | ⟨p₀, _ | ⟨p₁, _ | ⟨p₂, rest⟩⟩⟩
    · simpa [minDistFuel] using h
    · simpa [minDistFuel] using h
    · simpa [minDistFuel] using h
    · simp only [minDistFuel] at h ⊢
      rcases Option.bind_eq_some.mp h with ⟨sl, hsl, h2⟩
      rcases Option.bind_eq_some.mp h2 with ⟨sr, hsr, h3⟩
      rw [ih _ _ hsl f'' hff]
      simp only [Option.some_bind]
      rw [ih _ _ hsr f'' hff]
      simp only [Option.some_bind]
      exact h3

-- ### full correctness of minDist on duplicate-bounded inputs

theorem minDistFuel_correct_aux :
    ∀ (n : ℕ) (pts : List Point), pts.length ≤ n →
      (∀ x : ℝ, pts.countP (fun p => decide (p.1 = x)) ≤ 2) →
      minDistFuel (pts.length + 1) pts = some (bruteForceMin pts) := by
  intro n
  induction n with
  | zero =>
    intro pts hlen _
    have hnil : pts = [] := List.length_eq_zero.mp (by omega)
    subst hnil
    simp [minDistFuel, bruteForceMin, pairDists, minOfDists]
  | succ n ih =>
    intro pts hlen hx
    rcases pts with _ | ⟨p₀, _ | ⟨p₁, _ | ⟨p₂, rest⟩⟩⟩
    · simp [minDistFuel, bruteForceMin, pairDists, minOfDists]
    · simp [minDistFuel, bruteForceMin, pairDists, minOfDists]
    · -- two points: direct distance, and the brute-force min of the one pair
      have hpd : pairDists [p₀, p₁] = [euclid p₀ p₁] := by
        simp [pairDists]
      simp only [bruteForceMin]
      rw [hpd, minOfDists_cons, minOfDists_nil, min_eq_left le_top]
      simp only [minDistFuel, euclid]
    · -- three or more points: the divide-and-conquer branch
      simp only [minDistFuel]
      set xs := (p₀ :: p₁ :: p₂ :: rest).map Prod.fst with hxs
      set mid := (maxList xs + minList xs) / 2 with hmid
      set left := (p₀ :: p₁ :: p₂ :: rest).filter (fun p => decide (p.1 < mid)) with hleft
      set right := (p₀ :: p₁ :: p₂ :: rest).filter (fun p => decide (mid ≤ p.1)) with hright
      -- some x-coordinate differs from p₀'s, else p₀.1 would occur ≥ 3 times
      have hxne : ∃ b ∈ p₀ :: p₁ :: p₂ :: rest, b.1 ≠ p₀.1 := by
        by_contra hcon
        push_neg at hcon
        have hcount : (p₀ :: p₁ :: p₂ :: rest).countP (fun p => decide (p.1 = p₀.1))
            = (p₀ :: p₁ :: p₂ :: rest).length :=
          List.countP_eq_length.mpr (fun a ha => by simpa using hcon a ha)
        have h2 := hx p₀.1
        rw [hcount] at h2
        simp at h2
      obtain ⟨b, hb, hbne⟩ := hxne
      have hxs_ne : xs ≠ [] := by simp [hxs]
      have hb1 : b.1 ∈ xs := by rw [hxs]; exact List.mem_map.mpr ⟨b, hb, rfl⟩
      have hp01 : p₀.1 ∈ xs := by rw [hxs]; exact List.mem_map.mpr ⟨p₀, by simp, rfl⟩
      have hminmax : minList xs < maxList xs := by
        rcases lt_or_gt_of_ne hbne with hlt | hlt
        · exact lt_of_le_of_lt (minList_le hb1) (lt_of_lt_of_le hlt (le_maxList hp01))
        · exact lt_of_le_of_lt (minList_le hp01) (lt_of_lt_of_le hlt (le_maxList hb1))
      have hminmid : minList xs < mid := by rw [hmid]; linarith
      have hmidmax : mid ≤ maxList xs := by rw [hmid]; linarith
      obtain ⟨pmax, hpmax_mem, hpmax⟩ := List.mem_map.mp (hxs ▸ maxList_mem hxs_ne)
      obtain ⟨pmin, hpmin_mem, hpmin⟩ := List.mem_map.mp (hxs ▸ minList_mem hxs_ne)
      have hlleft : left.length < (p₀ :: p₁ :: p₂ :: rest).length := by
        rw [hleft]
        apply List.length_filter_lt_length_iff_exists.mpr
        refine ⟨pmax, hpmax_mem, ?_⟩
        simp only [decide_eq_true_eq]
        rw [hpmax]
        exact not_lt.mpr hmidmax
      have hlright : right.length < (p₀ :: p₁ :: p₂ :: rest).length := by
        rw [hright]
        apply List.length_filter_lt_length_iff_exists.mpr
        refine ⟨pmin, hpmin_mem, ?_⟩
        simp only [decide_eq_true_eq]
        rw [hpmin]
        exact not_le.mpr hminmid
      have hxleft : ∀ x : ℝ, left.countP (fun p => decide (p.1 = x)) ≤ 2 := fun x =>
        le_trans ((List.filter_sublist _).countP_le _) (hx x)
      have hxright : ∀ x : ℝ, right.countP (fun p => decide (p.1 = x)) ≤ 2 := fun x =>
        le_trans ((List.filter_sublist _).countP_le _) (hx x)
      have hlen' : (p₀ :: p₁ :: p₂ :: rest).length ≤ n + 1 := hlen
      have hIHleft := ih left (by omega) hxleft
      have hIHright := ih right (by omega) hxright
      have hmleft : minDistFuel (p₀ :: p₁ :: p₂ :: rest).length left
          = some (bruteForceMin left) :=
        minDistFuel_mono _ _ _ hIHleft _ (by omega)
      have hmright : minDistFuel (p₀ :: p₁ :: p₂ :: rest).length right
          = some (bruteForceMin right) :=
        minDistFuel_mono _ _ _ hIHright _ (by omega)
      rw [hmleft]
      simp only [Option.some_bind]
      rw [hmright]
      simp only [Option.some_bind]
      rw [hleft, hright]
      exact congrArg some (minDistStep_eq (p₀ :: p₁ :: p₂ :: rest) mid)

-- ### divergence on x-degenerate inputs

theorem minDistFuel_equalX_none (c : ℝ) :
    ∀ (fuel : ℕ) (pts : List Point), 3 ≤ pts.length → (∀ p ∈ pts, p.1 = c) →
      minDistFuel fuel pts = none := by
  intro fuel
  induction fuel with
  | zero => intro pts _ _; simp [minDistFuel]
  | succ fuel ih =>
    intro pts hlen hc
    rcases pts with _ | ⟨p₀, _ | ⟨p₁, _ | ⟨p₂, rest⟩⟩⟩
    · simp at hlen
    · simp at hlen
    · simp at hlen
    · simp only [minDistFuel]
      have hxsc : ∀ x ∈ (p₀ :: p₁ :: p₂ :: rest).map Prod.fst, x = c := by
        intro x hxmem
        obtain ⟨p, hp, rfl⟩ := List.mem_map.mp hxmem
        exact hc p hp
      have hmax : maxList ((p₀ :: p₁ :: p₂ :: rest).map Prod.fst) = c :=
        hxsc _ (maxList_mem (by simp))
      have hmin : minList ((p₀ :: p₁ :: p₂ :: rest).map Prod.fst) = c :=
        hxsc _ (minList_mem (by simp))
      have hmid : (maxList ((p₀ :: p₁ :: p₂ :: rest).map Prod.fst)
          + minList ((p₀ :: p₁ :: p₂ :: rest).map Prod.fst)) / 2 = c := by
        rw [hmax, hmin]
        ring
      simp only [hmid]
      have hleft : (p₀ :: p₁ :: p₂ :: rest).filter (fun p => decide (p.1 < c)) = [] := by
        apply List.filter_eq_nil_iff.mpr
        intro a ha
        simp only [decide_eq_true_eq]
        rw [hc a ha]
        exact lt_irrefl c
      have hright : (p₀ :: p₁ :: p₂ :: rest).filter (fun p => decide (c ≤ p.1))
          = p₀ :: p₁ :: p₂ :: rest := by
        apply List.filter_eq_self.mpr
        intro a ha
        simp only [decide_eq_true_eq]
        rw [hc a ha]
      simp only [hleft, hright]
      have hr := ih (p₀ :: p₁ :: p₂ :: rest) (by simp) hc
      simp only [hr]
      cases minDistFuel fuel ([] : List Point) <;> rfl

-- ### claim theorems for minDist

/-- C3: `minDist` of the empty list and of a single point is
`Infinity` (`⊤`); of exactly two points it is their direct Euclidean
distance, hence `0` for a duplicated point. -/
theorem minDist_small_cases (fuel : ℕ) (p q : Point) :
    minDistFuel (fuel + 1) ([] : List Point) = some ⊤ ∧
    minDistFuel (fuel + 1) [p] = some ⊤ ∧
    minDistFuel (fuel + 1) [p, q] = some ↑(euclid p q) ∧
    minDistFuel (fuel + 1) [p, p] = some ((0 : ℝ) : WithTop ℝ) := by
  refine ⟨rfl, rfl, rfl, ?_⟩
  simp only [minDistFuel]
  norm_num

/-- C2 (code bug): on three coincident points the `minDist` recursion
never terminates — the split line `mid` coincides with the shared
x-coordinate, so the `x < mid` half is empty and the `x >= mid` half is the
whole input, which recurses on itself.  No amount of fuel produces a
value, while the claim (and the spec's edge case) require termination
with value `0`. -/
theorem minDist_coincident_diverges (fuel : ℕ) :
    minDistFuel fuel [((5 : ℝ), 5), (5, 5), (5, 5)] = none := by
  apply minDistFuel_equalX_none 5 fuel
  · simp
  · intro p hp
    simp only [List.mem_cons, List.not_mem_nil, or_false] at hp
    rcases hp with rfl | rfl | rfl <;> rfl

/-- C1 (amended): for every list of points in which no x-coordinate value
occurs three or more times (so every divide-and-conquer subproblem with at
least three points has a non-degenerate x-extent and both halves of the
midpoint split are proper), `minDist` terminates within `length + 1`
nested calls and returns exactly the brute-force minimum Euclidean
distance over all unordered pairs. -/
theorem minDist_eq_bruteForce (pts : List Point)
    (hx : ∀ x : ℝ, pts.countP (fun p => decide (p.1 = x)) ≤ 2) :
    minDistFuel (pts.length + 1) pts = some (bruteForceMin pts) :=
  minDistFuel_correct_aux pts.length pts le_rfl hx

/-- C1 witness: two points with distinct x-coordinates. -/
theorem minDist_eq_bruteForce_witness :
    (∀ x : ℝ, ([((0 : ℝ), 0), (3, 4)] : List Point).countP
      (fun p => decide (p.1 = x)) ≤ 2) ∧
    minDistFuel (([((0 : ℝ), 0), (3, 4)] : List Point).length + 1) [((0 : ℝ), 0), (3, 4)]
      = some (bruteForceMin [((0 : ℝ), 0), (3, 4)]) :=
  ⟨fun x => le_trans (List.countP_le_length _) (by norm_num),
    minDist_eq_bruteForce [((0 : ℝ), 0), (3, 4)]
      (fun x => le_trans (List.countP_le_length _) (by norm_num))⟩

/-- C1 counterexample: on the explicit input `[[0,0],[0,1],[0,2]]` —
three points sharing the x-coordinate `0` — `minDist` returns no value at
the canonical fuel `length + 1` (indeed at any fuel, by
`minDistFuel_equalX_none`), so it does not return the brute-force minimum
(which is `1`), refuting the claim stated for every finite list. -/
theorem minDist_not_bruteForce_on_shared_x :
    minDistFuel (([((0 : ℝ), 0), (0, 1), (0, 2)] : List Point).length + 1)
        [((0 : ℝ), 0), (0, 1), (0, 2)] = none ∧
    minDistFuel (([((0 : ℝ), 0), (0, 1), (0, 2)] : List Point).length + 1)
        [((0 : ℝ), 0), (0, 1), (0, 2)]
      ≠ some (bruteForceMin [((0 : ℝ), 0), (0, 1), (0, 2)]) := by
  have h : minDistFuel (([((0 : ℝ), 0), (0, 1), (0, 2)] : List Point).length + 1)
      [((0 : ℝ), 0), (0, 1), (0, 2)] = none := by
    apply minDistFuel_equalX_none 0
    · simp
    · intro p hp
      simp only [List.mem_cons, List.not_mem_nil, or_false] at hp
      rcases hp with rfl | rfl | rfl <;> rfl
  exact ⟨h, by rw [h]; simp⟩

/-! ## Focus-scale claim -/

/-- The cluster bounds of node A's leaf pair `[[0,0],[10,0]]`. -/
theorem clusterBounds_nodeA : clusterBoundsList [((0:ℝ), 0), (10, 0)] = ⟨0, 0, 10, 0⟩ := by
  norm_num [clusterBoundsList, maxList, minList, max_def, min_def, Rect.mk.injEq]

/-- `minDist` of node A's leaf pair is `10`. -/
theorem minDist_nodeA_leaves :
    minDistFuel 1 [((0:ℝ), 0), (10, 0)] = some ((10 : ℝ) : WithTop ℝ) := by
  have h1 : ((0:ℝ) - 10) ^ 2 + ((0:ℝ) - 0) ^ 2 = 10 ^ 2 := by norm_num
  simp only [minDistFuel, h1, Real.sqrt_sq (show (0:ℝ) ≤ 10 by norm_num)]

/-- `minDist` of node B's leaf pair `[[0,0],[2000,0]]` is `2000`. -/
theorem minDist_nodeB_leaves :
    minDistFuel 1 [((0:ℝ), 0), (2000, 0)] = some ((2000 : ℝ) : WithTop ℝ) := by
  have h1 : ((0:ℝ) - 2000) ^ 2 + ((0:ℝ) - 0) ^ 2 = 2000 ^ 2 := by norm_num
  simp only [minDistFuel, h1, Real.sqrt_sq (show (0:ℝ) ≤ 2000 by norm_num)]

/-- Fitting node A's margin-expanded bounds to a `1 × 1` frame gives
center `(5, 0)` and `maxScale = 1/11`. -/
theorem fitRect_view_nodeA :
    rectToView (fitRect (scaleRectangle (⟨0, 0, 10, 0⟩ : Rect ℝ) 1.1) 1 1) 1
      = (5, 0, 1/11) := by
  norm_num [rectToView, fitRect, scaleRectangle, max_def, Prod.ext_iff]

/-- `50 / 10 = 5` under the JS division model. -/
theorem jsDivInf_fifty_ten : jsDivInf 50 ((10 : ℝ) : WithTop ℝ) = ((5 : ℝ) : WithTop ℝ) := by
  have h : (10 : ℝ) ≠ 0 := by norm_num
  simp [jsDivInf, h]
  norm_num

/-- `50 / 2000 = 1/40` under the JS division model. -/
theorem jsDivInf_fifty_twoThousand :
    jsDivInf 50 ((2000 : ℝ) : WithTop ℝ) = ((1/40 : ℝ) : WithTop ℝ) := by
  have h : (2000 : ℝ) ≠ 0 := by norm_num
  simp [jsDivInf, h]
  norm_num

theorem min_coe_eleventh_five :
    min ((1/11 : ℝ) : WithTop ℝ) ((5 : ℝ) : WithTop ℝ) = ((1/11 : ℝ) : WithTop ℝ) := by
  rw [← WithTop.coe_min]
  norm_num [min_def]

theorem lookup_spacing_hit :
    lookupKey [((2:ℝ), ((10:ℝ) : WithTop ℝ))] (2:ℝ) = some ((10:ℝ) : WithTop ℝ) := by
  simp [lookupKey]

theorem lookup_bounds_hit :
    lookupKey [(((2:ℝ), 1), (⟨0, 0, 10, 0⟩ : Rect ℝ))] ((2:ℝ), 1)
      = some (⟨0, 0, 10, 0⟩ : Rect ℝ) := by
  simp [lookupKey]

/-- Focusing node A (value 2, depth 1, leaves `[[0,0],[10,0]]`) from empty
caches computes spacing `10` and bounds `(0,0,10,0)`, stores both under
node A's keys, and emits the view `(5, 0, 1/11)`
(`scale = min(1/11, 50/10) = 1/11`). -/
theorem focusMemo_first_nodeA :
    focusMemo 1 ⟨[], []⟩ ⟨2, 1, [((0:ℝ), 0), (10, 0)]⟩ 1 1
      = some ((5, 0, ((1/11 : ℝ) : WithTop ℝ)),
          ⟨[((2:ℝ), ((10:ℝ) : WithTop ℝ))], [(((2:ℝ), 1), ⟨0, 0, 10, 0⟩)]⟩) := by
  simp only [focusMemo, clusterBoundsMemo, clusterSpacingMemo, lookupKey, clusterBounds_nodeA,
    minDist_nodeA_leaves, Option.map_some', fitRect_view_nodeA, jsDivInf_fifty_ten,
    min_coe_eleventh_five]

/-- Focusing node B (value 2, depth 1, leaves `[[0,0],[2000,0]]`) with
node A's entries cached hits both caches on B's colliding keys and emits
node A's view `(5, 0, 1/11)` unchanged — B's own leaves are never
consulted. -/
theorem focusMemo_then_nodeB :
    focusMemo 1 ⟨[((2:ℝ), ((10:ℝ) : WithTop ℝ))], [(((2:ℝ), 1), ⟨0, 0, 10, 0⟩)]⟩
        ⟨2, 1, [((0:ℝ), 0), (2000, 0)]⟩ 1 1
      = some ((5, 0, ((1/11 : ℝ) : WithTop ℝ)),
          ⟨[((2:ℝ), ((10:ℝ) : WithTop ℝ))], [(((2:ℝ), 1), ⟨0, 0, 10, 0⟩)]⟩) := by
  simp only [focusMemo, clusterBoundsMemo, clusterSpacingMemo, lookup_spacing_hit,
    lookup_bounds_hit, Option.map_some', fitRect_view_nodeA, jsDivInf_fifty_ten,
    min_coe_eleventh_five]

/-- C8 (code bug): evaluation at the failing input.  In a `1 × 1` frame,
`focus` on node A (value 2, leaves 10 apart) followed by `focus` on the
distinct node B (also value 2, leaves 2000 apart) serves B node A's
cached spacing and bounds — the memo keys collide because `node.value` is
not unique — and emits scale `1/11`, even though `minDist` of B's own
leaves is `2000`, so the bound the claim states,
`scale ≤ 50 / minDist(leaf positions under node) = 1/40`, is violated:
`¬ 1/11 ≤ 1/40`. -/
theorem focus_scale_uses_stale_spacing :
    focusMemo 1 ⟨[], []⟩ ⟨2, 1, [((0:ℝ), 0), (10, 0)]⟩ 1 1
      = some ((5, 0, ((1/11 : ℝ) : WithTop ℝ)),
          ⟨[((2:ℝ), ((10:ℝ) : WithTop ℝ))], [(((2:ℝ), 1), ⟨0, 0, 10, 0⟩)]⟩) ∧
    focusMemo 1 ⟨[((2:ℝ), ((10:ℝ) : WithTop ℝ))], [(((2:ℝ), 1), ⟨0, 0, 10, 0⟩)]⟩
        ⟨2, 1, [((0:ℝ), 0), (2000, 0)]⟩ 1 1
      = some ((5, 0, ((1/11 : ℝ) : WithTop ℝ)),
          ⟨[((2:ℝ), ((10:ℝ) : WithTop ℝ))], [(((2:ℝ), 1), ⟨0, 0, 10, 0⟩)]⟩) ∧
    minDistFuel 1 [((0:ℝ), 0), (2000, 0)] = some ((2000 : ℝ) : WithTop ℝ) ∧
    ¬ ((1/11 : ℝ) : WithTop ℝ) ≤ jsDivInf 50 ((2000 : ℝ) : WithTop ℝ) := by
  refine ⟨focusMemo_first_nodeA, focusMemo_then_nodeB, minDist_nodeB_leaves, ?_⟩
  rw [jsDivInf_fifty_twoThousand, WithTop.coe_le_coe]
  norm_num

/-- The boundary of the failure: on a spacing-cache miss — no entry is
stored under the node's `value` — the emitted scale does satisfy both
bounds of the claim, `scale ≤ 50 / minDist(own leaves)` and
`scale ≤ maxScale`; the violation above is purely a stale-cache
phenomenon. -/
theorem focusMemo_fresh_clamped (fuel : ℕ) (st : ChartState) (n : FocusNode)
    (w h : ℝ) (spacing : WithTop ℝ) (x y : ℝ) (s : WithTop ℝ) (st' : ChartState)
    (hmiss : lookupKey st.spacingCache n.value = none)
    (hspacing : minDistFuel fuel n.leafPos = some spacing)
    (hview : focusMemo fuel st n w h = some ((x, y, s), st')) :
    s ≤ jsDivInf 50 spacing ∧
    s ≤ ↑((rectToView (fitRect (scaleRectangle (clusterBoundsMemo st.boundsCache n).1 1.1)
      w h) w).2.2) := by
  simp only [focusMemo, clusterSpacingMemo, hmiss, hspacing, Option.map_some'] at hview
  simp only [Option.some.injEq, Prod.mk.injEq] at hview
  obtain ⟨⟨hx1, hy1, hs⟩, hst⟩ := hview
  rw [← hs]
  exact ⟨min_le_right _ _, min_le_left _ _⟩

theorem focusMemo_fresh_clamped_witness :
    lookupKey (ChartState.mk [] []).spacingCache (FocusNode.mk 2 1 [((0:ℝ), 0), (10, 0)]).value
        = none ∧
    minDistFuel 1 (FocusNode.mk 2 1 [((0:ℝ), 0), (10, 0)]).leafPos
        = some ((10 : ℝ) : WithTop ℝ) ∧
    focusMemo 1 (ChartState.mk [] []) (FocusNode.mk 2 1 [((0:ℝ), 0), (10, 0)]) 1 1
      = some ((5, 0, ((1/11 : ℝ) : WithTop ℝ)),
          ⟨[((2:ℝ), ((10:ℝ) : WithTop ℝ))], [(((2:ℝ), 1), ⟨0, 0, 10, 0⟩)]⟩) ∧
    (((1/11 : ℝ) : WithTop ℝ) ≤ jsDivInf 50 ((10 : ℝ) : WithTop ℝ) ∧
      ((1/11 : ℝ) : WithTop ℝ) ≤
        ↑((rectToView (fitRect (scaleRectangle
          (clusterBoundsMemo (ChartState.mk [] []).boundsCache
            (FocusNode.mk 2 1 [((0:ℝ), 0), (10, 0)])).1 1.1) 1 1) 1).2.2)) :=
  ⟨rfl, minDist_nodeA_leaves, focusMemo_first_nodeA,
    focusMemo_fresh_clamped 1 (ChartState.mk [] []) (FocusNode.mk 2 1 [((0:ℝ), 0), (10, 0)])
      1 1 ((10 : ℝ) : WithTop ℝ) 5 0 ((1/11 : ℝ) : WithTop ℝ)
      ⟨[((2:ℝ), ((10:ℝ) : WithTop ℝ))], [(((2:ℝ), 1), ⟨0, 0, 10, 0⟩)]⟩
      rfl minDist_nodeA_leaves focusMemo_first_nodeA⟩
